import Mathlib

/-!
Verification development for the cachejs repository.

Shallow embedding of the cache library: the stable-hash normalizer, the
in-process memory backend over an LRU + TTL store, the namespace-scoping
wrapper, the registry, and the distributed (Redis) backend's read path.
Machine state is modelled explicitly (the LRU store as a list in
most-recently-used-first order, time as a natural-number clock) and every
operation is a pure state-passing function mirroring the TypeScript source.
-/

namespace Cachejs

/-- Structured JSON-like values, the domain of `stableHash` (stable-hash.ts).
Objects are association lists of string keys to values; a well-formed
JavaScript object has pairwise-distinct keys. -/
inductive Val where
  | null : Val
  | bool (b : Bool) : Val
  | num (n : Int) : Val
  | str (s : String) : Val
  | arr (l : List Val) : Val
  | obj (l : List (String × Val)) : Val

/-- Entry comparison used when sorting object entries by key, mirroring
`Object.keys(value).sort()` in stable-hash.ts. -/
def entryLe (a b : String × Val) : Prop := a.1 ≤ b.1

instance : DecidableRel entryLe := fun a b => inferInstanceAs (Decidable (a.1 ≤ b.1))

instance : IsTotal (String × Val) entryLe := ⟨fun a b => le_total a.1 b.1⟩

instance : IsTrans (String × Val) entryLe := ⟨fun _ _ _ h₁ h₂ => le_trans h₁ h₂⟩

/-- Strict key order on entries (used to show sorting is deterministic on
duplicate-free key sets). -/
def entryLt (a b : String × Val) : Prop := a.1 < b.1

instance : IsAntisymm (String × Val) entryLt :=
  ⟨fun _ _ h₁ h₂ => absurd h₂ (lt_asymm h₁)⟩

/-- Sorting of object entries by key (model of `Object.keys(value).sort()`). -/
def sortEntries (l : List (String × Val)) : List (String × Val) :=
  List.insertionSort entryLe l

mutual

/-- The recursive `normalize` from stable-hash.ts: arrays normalize
element-wise preserving order, objects sort their keys lexicographically and
recurse into values, scalars pass through unchanged. -/
def normalize : Val → Val
  | .null => .null
  | .bool b => .bool b
  | .num n => .num n
  | .str s => .str s
  | .arr l => .arr (normalizeList l)
  | .obj l => .obj (sortEntries (normalizeEntries l))

/-- Element-wise normalization of an array (`value.map(normalize)`). -/
def normalizeList : List Val → List Val
  | [] => []
  | v :: vs => normalize v :: normalizeList vs

/-- Value-wise normalization of object entries (the `reduce` accumulating
`acc[key] = normalize(value[key])`). -/
def normalizeEntries : List (String × Val) → List (String × Val)
  | [] => []
  | (k, v) :: ps => (k, normalize v) :: normalizeEntries ps

end

mutual

/-- Canonical serialization of a (normalized) value, the model of
`stringify` from safe-stable-stringify as used in stable-hash.ts. -/
def serialize : Val → String
  | .null => "null"
  | .bool b => if b then "true" else "false"
  | .num n => toString n
  | .str s => "\"" ++ s ++ "\""
  | .arr l => "[" ++ serializeList l ++ "]"
  | .obj l => "\x7b" ++ serializeEntries l ++ "\x7d"

/-- Comma-separated serialization of array elements. -/
def serializeList : List Val → String
  | [] => ""
  | [v] => serialize v
  | v :: vs => serialize v ++ "," ++ serializeList vs

/-- Comma-separated serialization of object entries. -/
def serializeEntries : List (String × Val) → String
  | [] => ""
  | [(k, v)] => "\"" ++ k ++ "\":" ++ serialize v
  | (k, v) :: ps => "\"" ++ k ++ "\":" ++ serialize v ++ "," ++ serializeEntries ps

end

/-- stableHash from stable-hash.ts: normalize, serialize canonically, then
apply the digest (`crypto.createHash('sha1')...slice(0, 16)`).  The digest
primitive is an external collaborator (node crypto), so it is passed as a
function parameter. -/
def stableHash (digest : String → String) (v : Val) : String :=
  digest (serialize (normalize v))

mutual

/-- Well-formedness of a value as a JavaScript runtime value: every object
level has pairwise-distinct keys (a JS object cannot hold duplicate keys). -/
def ValWF : Val → Bool
  | .null => true
  | .bool _ => true
  | .num _ => true
  | .str _ => true
  | .arr l => ValWFList l
  | .obj l => decide ((l.map Prod.fst).Nodup) && ValWFEntries l

/-- Well-formedness of every element of an array. -/
def ValWFList : List Val → Bool
  | [] => true
  | v :: vs => ValWF v && ValWFList vs

/-- Well-formedness of every value of an object's entries. -/
def ValWFEntries : List (String × Val) → Bool
  | [] => true
  | (_, v) :: ps => ValWF v && ValWFEntries ps

end

/-- Deep equality up to the ordering of object (mapping) keys: arrays must
match pointwise in order; objects may permute their entries at every level,
with values again related up to key order. -/
inductive EqUpToKeyOrder : Val → Val → Prop where
  | null : EqUpToKeyOrder .null .null
  | bool (b : Bool) : EqUpToKeyOrder (.bool b) (.bool b)
  | num (n : Int) : EqUpToKeyOrder (.num n) (.num n)
  | str (s : String) : EqUpToKeyOrder (.str s) (.str s)
  | arr (l₁ l₂ : List Val) (hlen : l₁.length = l₂.length)
      (h : ∀ i (h₁ : i < l₁.length) (h₂ : i < l₂.length),
        EqUpToKeyOrder (l₁.get ⟨i, h₁⟩) (l₂.get ⟨i, h₂⟩)) :
      EqUpToKeyOrder (.arr l₁) (.arr l₂)
  | obj (l₁ l₂ l₃ : List (String × Val)) (hlen : l₁.length = l₃.length)
      (hkey : ∀ i (h₁ : i < l₁.length) (h₃ : i < l₃.length),
        (l₁.get ⟨i, h₁⟩).1 = (l₃.get ⟨i, h₃⟩).1)
      (hval : ∀ i (h₁ : i < l₁.length) (h₃ : i < l₃.length),
        EqUpToKeyOrder (l₁.get ⟨i, h₁⟩).2 (l₃.get ⟨i, h₃⟩).2)
      (hperm : List.Perm l₃ l₂) :
      EqUpToKeyOrder (.obj l₁) (.obj l₂)

/-- Partial cache options as accepted by every constructor and by
`setOptions` (ICacheOptions from types.ts): every field optional.
The `prefix` field of the source is called `pref` here. -/
structure PartialOpts where
  ttl : Option Nat := none
  maxSize : Option Nat := none
  pref : Option String := none
  enabled : Option Bool := none

/-- Fully-normalized options (`Required<ICacheOptions>`). -/
structure NormOpts where
  ttl : Nat
  maxSize : Nat
  pref : String
  enabled : Bool
deriving DecidableEq

/-- BaseCache.normalizeOptions: each missing field falls back to its
default (ttl 300000 ms, maxSize 1000, empty prefix, enabled). -/
def normalizeOptions (o : PartialOpts) : NormOpts :=
  { ttl := o.ttl.getD 300000
    maxSize := o.maxSize.getD 1000
    pref := o.pref.getD ""
    enabled := o.enabled.getD true }

/-- BaseCache.buildKey: prepend `prefix + ":"` when the prefix is non-empty,
otherwise return the key unchanged. -/
def buildKey (opts : NormOpts) (key : String) : String :=
  if opts.pref ≠ "" then opts.pref ++ ":" ++ key else key

/-- One entry of the lru-cache store: key, value, the time the TTL clock was
last (re)started, and the entry's TTL in milliseconds (0 = no expiry). -/
structure LruEntry (T : Type) where
  key : String
  value : T
  start : Nat
  ttl : Nat
deriving DecidableEq

/-- An lru-cache entry is expired when it has a TTL and that TTL has fully
elapsed since `start`. -/
def lruExpired {T : Type} (e : LruEntry T) (now : Nat) : Bool :=
  e.ttl != 0 && decide (e.start + e.ttl ≤ now)

/-- The lru-cache store: entries in most-recently-used-first order (the
iteration order of `keys()`). -/
def LruStore (T : Type) := List (LruEntry T)

/-- lru-cache `set`: (re)insert the key at the most-recently-used position
and evict from the least-recently-used end past capacity `max`. -/
def lruSet {T : Type} (max : Nat) (st : LruStore T) (k : String) (v : T)
    (now : Nat) (ttl : Nat) : LruStore T :=
  (⟨k, v, now, ttl⟩ :: List.filter (fun e => !(e.key == k)) st).take max

/-- lru-cache `get` with `updateAgeOnGet` and `allowStale: false`: a live hit
moves the entry to the most-recently-used position and restarts its TTL
clock; an expired entry is removed and reported absent. -/
def lruGet {T : Type} (st : LruStore T) (k : String) (now : Nat) :
    Option T × LruStore T :=
  match List.find? (fun e => e.key == k) st with
  | none => (none, st)
  | some e =>
    if lruExpired e now then
      (none, List.filter (fun e' => !(e'.key == k)) st)
    else
      (some e.value,
        ⟨e.key, e.value, now, e.ttl⟩ :: List.filter (fun e' => !(e'.key == k)) st)

/-- lru-cache `has`: present and not expired; does not touch recency. -/
def lruHas {T : Type} (st : LruStore T) (k : String) (now : Nat) : Bool :=
  match List.find? (fun e => e.key == k) st with
  | none => false
  | some e => !lruExpired e now

/-- lru-cache `delete`: remove the entry with this key, reporting whether it
was present. -/
def lruDelete {T : Type} (st : LruStore T) (k : String) : Bool × LruStore T :=
  (List.any st (fun e => e.key == k), List.filter (fun e => !(e.key == k)) st)

/-- Keys of the store in iteration order of lru-cache `keys()`: most recently
used first. -/
def lruKeys {T : Type} (st : LruStore T) : List String :=
  st.map LruEntry.key

/-- Wildcard matcher for `getKeys` patterns: the source compiles the pattern
to an anchored regular expression whose only metacharacter is `*` rewritten
to `.*` (every other character escaped to a literal). -/
def patMatch : List Char → List Char → Bool
  | [], ks => ks.isEmpty
  | p :: ps, ks =>
    if p = '*' then (List.tails ks).any (fun suf => patMatch ps suf)
    else
      match ks with
      | [] => false
      | k :: ks' => p == k && patMatch ps ks'

/-- String form of the pattern matcher. -/
def patMatchStr (pattern key : String) : Bool :=
  patMatch pattern.data key.data

/-- The in-process MemoryCache: normalized options, hit/miss counters, the
LRU store, and the store's fixed construction-time capacity and default TTL
(`createLRUCache` reads both once and they do not change on setOptions). -/
structure MemoryCache (T : Type) where
  options : NormOpts
  hits : Nat
  misses : Nat
  store : LruStore T
  lruMax : Nat
  lruTtl : Nat

/-- MemoryCache.createLRUCache capacity: a `maxSize` of 0 (or absent) is
replaced by the default 1000. -/
def lruMaxOf (maxSize : Nat) : Nat :=
  if maxSize = 0 then 1000 else maxSize

/-- The MemoryCache constructor: normalize options, then build the LRU store
with capacity `lruMaxOf maxSize` and default TTL `ttl`. -/
def mkMemoryCache {T : Type} (o : PartialOpts) : MemoryCache T :=
  let n := normalizeOptions o
  { options := n, hits := 0, misses := 0, store := []
    lruMax := lruMaxOf n.maxSize, lruTtl := n.ttl }

/-- MemoryCache.get: disabled counts a miss; otherwise look up the prefixed
key in the store, counting a hit or a miss. -/
def memGet {T : Type} (c : MemoryCache T) (key : String) (now : Nat) :
    Option T × MemoryCache T :=
  if !c.options.enabled then
    (none, { c with misses := c.misses + 1 })
  else
    match lruGet c.store (buildKey c.options key) now with
    | (none, st) => (none, { c with misses := c.misses + 1, store := st })
    | (some v, st) => (some v, { c with hits := c.hits + 1, store := st })

/-- MemoryCache.set: a no-op when disabled; otherwise store `{ value }` under
the prefixed key, with the explicit TTL when given, else the store's default. -/
def memSet {T : Type} (c : MemoryCache T) (key : String) (v : T)
    (ttl : Option Nat) (now : Nat) : MemoryCache T :=
  if !c.options.enabled then c
  else
    let st := lruSet c.lruMax c.store (buildKey c.options key) v now (ttl.getD c.lruTtl)
    { c with store := st }

/-- MemoryCache.delete: delete the prefixed key from the store. -/
def memDelete {T : Type} (c : MemoryCache T) (key : String) :
    Bool × MemoryCache T :=
  let r := lruDelete c.store (buildKey c.options key)
  (r.1, { c with store := r.2 })

/-- MemoryCache.has on the prefixed key. -/
def memHas {T : Type} (c : MemoryCache T) (key : String) (now : Nat) : Bool :=
  lruHas c.store (buildKey c.options key) now

/-- MemoryCache.getKeys: all stored keys matching the anchored wildcard
pattern, in store iteration order. -/
def memGetKeys {T : Type} (c : MemoryCache T) (pattern : String) : List String :=
  (lruKeys c.store).filter (fun k => patMatchStr pattern k)

/-- BaseCache.deleteByPattern as inherited by MemoryCache: resolve the
matching keys via getKeys, then delete each one (MemoryCache.delete applies
buildKey to each resolved key again). -/
def memDeleteByPattern {T : Type} (c : MemoryCache T) (pattern : String) :
    MemoryCache T :=
  (memGetKeys c pattern).foldl (fun acc k => (memDelete acc k).2) c

/-- BaseCache.deleteByPrefix: sugar for `deleteByPattern(prefix + "*")`. -/
def memDeleteByPref {T : Type} (c : MemoryCache T) (p : String) : MemoryCache T :=
  memDeleteByPattern c (p ++ "*")

/-- MemoryCache.clearByPrefix: remove every stored key that starts (as a
character string) with `buildKey(options.prefix)`. -/
def memClearByPref {T : Type} (c : MemoryCache T) : MemoryCache T :=
  { c with store :=
      c.store.filter (fun e => !(String.startsWith e.key (buildKey c.options c.options.pref))) }

/-- MemoryCache.size: the LRU store's entry count. -/
def memSize {T : Type} (c : MemoryCache T) : Nat :=
  c.store.length

/-- BaseCache.clear (as run by MemoryCache.clear): clearByPrefix, then reset
the hit/miss counters. -/
def memClear {T : Type} (c : MemoryCache T) : MemoryCache T :=
  let c' := memClearByPref c
  { c' with hits := 0, misses := 0 }

/-- MemoryCache.disconnect: BaseCache.disconnect (clear + counter reset)
followed by `store.clear()`. -/
def memDisconnect {T : Type} (c : MemoryCache T) : MemoryCache T :=
  let c' := memClear c
  { c' with store := [] }

/-- MemoryCache.dispose, an alias for disconnect. -/
def memDispose {T : Type} (c : MemoryCache T) : MemoryCache T :=
  memDisconnect c

/-- MemoryCache.evictExcessEntries: collect the first `size - newMax` keys in
`keys()` iteration order and delete each of them. -/
def memEvictExcess {T : Type} (c : MemoryCache T) (newMax : Nat) : MemoryCache T :=
  let toRemove := c.store.length - newMax
  if toRemove = 0 then c
  else
    let ks := ((c.store.take toRemove).map LruEntry.key)
    { c with store :=
        ks.foldl (fun st k => List.filter (fun e => !(e.key == k)) st) c.store }

/-- MemoryCache.onOptionsChanged: when maxSize shrank below the current
occupancy, evict the excess entries. -/
def memOnOptionsChanged {T : Type} (c : MemoryCache T) (old new : NormOpts) :
    MemoryCache T :=
  if new.maxSize < old.maxSize ∧ c.store.length > new.maxSize then
    memEvictExcess c new.maxSize
  else c

/-- BaseCache.setOptions as run on a MemoryCache: merge the partial options
over the current ones, re-normalize, and invoke the options-changed hook.
The LRU store's own capacity and default TTL are not touched. -/
def memSetOptions {T : Type} (c : MemoryCache T) (o : PartialOpts) : MemoryCache T :=
  let old := c.options
  let merged : NormOpts :=
    { ttl := o.ttl.getD old.ttl
      maxSize := o.maxSize.getD old.maxSize
      pref := o.pref.getD old.pref
      enabled := o.enabled.getD old.enabled }
  memOnOptionsChanged { c with options := merged } old merged

/-- ScopedCache: its own normalized options plus the wrapped backend
instance (modelled here over the in-process MemoryCache backend). -/
structure ScopedCache (T : Type) where
  options : NormOpts
  backendInst : MemoryCache T

/-- The ScopedCache constructor: ttl and enabled fall back to the wrapped
backend's options, the prefix defaults to empty (independent of the
backend's own prefix), maxSize is inherited from the backend. -/
def mkScopedCache {T : Type} (backend : MemoryCache T) (o : PartialOpts) :
    ScopedCache T :=
  { options :=
      { ttl := o.ttl.getD backend.options.ttl
        maxSize := backend.options.maxSize
        pref := o.pref.getD ""
        enabled := o.enabled.getD backend.options.enabled }
    backendInst := backend }

/-- ScopedCache.applyPrefix: `prefix + ":" + key` when the scope prefix is
non-empty, otherwise the key unchanged. -/
def applyPref (opts : NormOpts) (key : String) : String :=
  if opts.pref ≠ "" then opts.pref ++ ":" ++ key else key

/-- ScopedCache.get: absent when the scope is disabled, otherwise delegate
to the backend under the scoped key. -/
def scopedGet {T : Type} (s : ScopedCache T) (key : String) (now : Nat) :
    Option T × ScopedCache T :=
  if !s.options.enabled then (none, s)
  else
    let r := memGet s.backendInst (applyPref s.options key) now
    (r.1, { s with backendInst := r.2 })

/-- ScopedCache.set: a no-op when disabled; otherwise delegate with the
scoped key and the effective TTL (explicit ttl, else the scope's ttl). -/
def scopedSet {T : Type} (s : ScopedCache T) (key : String) (v : T)
    (ttl : Option Nat) (now : Nat) : ScopedCache T :=
  if !s.options.enabled then s
  else
    { s with backendInst :=
        memSet s.backendInst (applyPref s.options key) v (some (ttl.getD s.options.ttl)) now }

/-- ScopedCache.delete under the scoped key. -/
def scopedDelete {T : Type} (s : ScopedCache T) (key : String) :
    Bool × ScopedCache T :=
  let r := memDelete s.backendInst (applyPref s.options key)
  (r.1, { s with backendInst := r.2 })

/-- ScopedCache.getKeys: delegate with the scoped pattern. -/
def scopedGetKeys {T : Type} (s : ScopedCache T) (pattern : String) : List String :=
  memGetKeys s.backendInst (applyPref s.options pattern)

/-- ScopedCache.clear and ScopedCache.clearByPrefix: both call the backend's
deleteByPrefix with the scope's own prefix. -/
def scopedClear {T : Type} (s : ScopedCache T) : ScopedCache T :=
  { s with backendInst := memDeleteByPref s.backendInst s.options.pref }

/-- ScopedCache.size: the number of keys under the scope's own prefix, via
`getKeys("*")` scoped, not the backend's raw size. -/
def scopedSize {T : Type} (s : ScopedCache T) : Nat :=
  (scopedGetKeys s "*").length

/-- ScopedCache.disconnect: just `clear()` — no disposed flag is recorded. -/
def scopedDisconnect {T : Type} (s : ScopedCache T) : ScopedCache T :=
  scopedClear s

/-- ScopedCache.dispose, an alias for disconnect. -/
def scopedDispose {T : Type} (s : ScopedCache T) : ScopedCache T :=
  scopedDisconnect s

/-- The stats record produced by MemoryCache.getStats (base stats plus the
memory-specific fields; `evictedCount` and `calculatedSize` read properties
that are absent or zero on the store, so they are the constants the `|| 0`
fallback produces). -/
structure MemStats where
  hits : Nat
  misses : Nat
  hitRate : Rat
  size : Nat
  backendName : String
  evictions : Nat
  maxSize : Nat
  lruSize : Nat
  ttl : Nat
  calculatedSize : Nat
  isFull : Bool
deriving DecidableEq

/-- MemoryCache.getStats. -/
def memGetStats {T : Type} (c : MemoryCache T) : MemStats :=
  { hits := c.hits
    misses := c.misses
    hitRate := if c.hits + c.misses > 0 then (c.hits : Rat) / ((c.hits : Rat) + (c.misses : Rat)) else 0
    size := memSize c
    backendName := "memory"
    evictions := 0
    maxSize := c.options.maxSize
    lruSize := c.store.length
    ttl := c.options.ttl
    calculatedSize := 0
    isFull := decide (c.store.length ≥ c.options.maxSize) }

/-- ScopedCache.getStats: returns the wrapped backend's stats unchanged. -/
def scopedGetStats {T : Type} (s : ScopedCache T) : MemStats :=
  memGetStats s.backendInst

/-- The two backend kinds of the registry. -/
inductive BackendKind where
  | memory : BackendKind
  | redis : BackendKind
deriving DecidableEq

/-- Display name of a backend kind, as used in error messages. -/
def kindName : BackendKind → String
  | .memory => "memory"
  | .redis => "redis"

/-- The registry state: one instance per registered backend kind, plus the
kind flagged as default.  The instance type is a parameter. -/
structure Registry (ι : Type) where
  backends : List (BackendKind × ι)
  defaultBackend : Option BackendKind
deriving DecidableEq

/-- Whether a backend of this kind is registered. -/
def registryHas {ι : Type} (r : Registry ι) (k : BackendKind) : Bool :=
  r.backends.any (fun p => decide (p.1 = k))

/-- CacheRegistry.registerBackend (registry.ts): a duplicate kind returns
silently, leaving the registry (including the default flag) unchanged;
otherwise the instance is stored and the default updated when requested. -/
def registerBackend {ι : Type} (r : Registry ι) (k : BackendKind) (inst : ι)
    (isDefault : Bool) : Except String (Registry ι) :=
  if registryHas r k then .ok r
  else
    .ok { backends := r.backends ++ [(k, inst)]
          defaultBackend := if isDefault then some k else r.defaultBackend }

/-- CacheRegistry.register (the name-keyed registry variant): a duplicate
name throws `Cache "<name>" already registered`; otherwise the instance is
stored, becoming the default when requested or when no default exists yet. -/
def registerNamed {ι : Type} (r : Registry ι) (k : BackendKind) (inst : ι)
    (isDefault : Bool) : Except String (Registry ι) :=
  if registryHas r k then
    .error ("Cache \"" ++ kindName k ++ "\" already registered")
  else
    .ok { backends := r.backends ++ [(k, inst)]
          defaultBackend :=
            if isDefault || r.defaultBackend.isNone then some k else r.defaultBackend }

/-- Hit/miss counters of the Redis backend. -/
structure RedisState where
  hits : Nat
  misses : Nat
deriving DecidableEq

/-- RedisCache.get: the Redis client (`redis.get`) is an external
collaborator modelled as a function returning either a failure, absence
(`null`), or the raw stored string; `JSON.parse` is modelled as the `parse`
parameter.  Disabled, client failure, absence and parse failure all count a
miss and return absent; a parsed value counts a hit. -/
def redisGet {T : Type} (opts : NormOpts) (client : String → Except Unit (Option String))
    (parse : String → Option T) (key : String) (st : RedisState) :
    Option T × RedisState :=
  if !opts.enabled then (none, { st with misses := st.misses + 1 })
  else
    match client (buildKey opts key) with
    | .error _ => (none, { st with misses := st.misses + 1 })
    | .ok none => (none, { st with misses := st.misses + 1 })
    | .ok (some raw) =>
      match parse raw with
      | none => (none, { st with misses := st.misses + 1 })
      | some v => (some v, { st with hits := st.hits + 1 })

/-- BaseCache.generateKey (the buildKey-based variant, base.ts lines 41-50):
`resource:operation`, with `:hash(params)` appended when params are present,
then the instance prefix applied through buildKey. -/
def generateKey (digest : String → String) (opts : NormOpts)
    (resource operation : String) (params : Option Val) : String :=
  match params with
  | none => buildKey opts (resource ++ ":" ++ operation)
  | some p => buildKey opts (resource ++ ":" ++ operation ++ ":" ++ stableHash digest p)

/-- The second BaseCache.generateKey variant (base.ts lines 162-169): the
prefix and a colon are emitted unconditionally, even when the prefix is
empty. -/
def generateKeyV2 (digest : String → String) (pref resource operation : String)
    (params : Option Val) : String :=
  match params with
  | none => pref ++ ":" ++ resource ++ ":" ++ operation
  | some p => pref ++ ":" ++ resource ++ ":" ++ operation ++ ":" ++ stableHash digest p

/-- Star-freeness of a prefix string (no `*` wildcard of its own). -/
def noStar (s : String) : Bool :=
  !s.data.contains '*'

/-- Character-level string-prefix test (p is a literal leading substring of
k, colon not required). -/
def strHasPref (p k : String) : Bool :=
  p.data.isPrefixOf k.data

/-- Insert a list of keys in order, all with the same value, at time 0
(used to exercise capacity behaviour). -/
def insertAll {T : Type} (c : MemoryCache T) (ks : List String) (v : T) :
    MemoryCache T :=
  ks.foldl (fun acc k => memSet acc k v none 0) c

/-- Concrete MemoryCache of the disposal test (`new MemoryCache()`). -/
def c1Mem0 : MemoryCache String := mkMemoryCache {}

/-- After `set('test', 'data')`. -/
def c1Mem1 : MemoryCache String := memSet c1Mem0 "test" "data" none 0

/-- After `dispose()`. -/
def c1Mem2 : MemoryCache String := memDispose c1Mem1

/-- After a post-disposal `set('test', 'data2')`. -/
def c1Mem3 : MemoryCache String := memSet c1Mem2 "test" "data2" none 1

/-- Concrete backend of the ScopedCache disposal test. -/
def c1Backend : MemoryCache String := mkMemoryCache { maxSize := some 10 }

/-- `new ScopedCache(backend, { prefix: 'test-scope' })`. -/
def c1Scoped0 : ScopedCache String := mkScopedCache c1Backend { pref := some "test-scope" }

/-- After `set('item1', 'data1')`. -/
def c1Scoped1 : ScopedCache String := scopedSet c1Scoped0 "item1" "data1" none 0

/-- After `dispose()`. -/
def c1Scoped2 : ScopedCache String := scopedDispose c1Scoped1

/-- After a post-disposal `set('item3', 'data3')`. -/
def c1Scoped3 : ScopedCache String := scopedSet c1Scoped2 "item3" "data3" none 1

/-- Concrete cache for the prefix-deletion counterexample: keys `a:1`,
`ab:x` and `b:1` under an empty backend prefix. -/
def c2Cache : MemoryCache String :=
  memSet (memSet (memSet (mkMemoryCache { maxSize := some 10 })
    "a:1" "v1" none 0) "ab:x" "v2" none 0) "b:1" "v3" none 0

/-- The same cache after `deleteByPrefix("a")`. -/
def c2After : MemoryCache String := memDeleteByPref c2Cache "a"

/-- Object value with keys in order b, a (for the stable-hash witness). -/
def c4VA : Val := .obj [("b", .str "y"), ("a", .str "x")]

/-- The same mapping with keys in order a, b. -/
def c4VB : Val := .obj [("a", .str "x"), ("b", .str "y")]

/-- 1001 pairwise-distinct keys (the i-th key is `'a'` repeated i times). -/
def c5Keys : List String :=
  (List.range 1001).map (fun i => String.mk (List.replicate i 'a'))

/-- A MemoryCache constructed with `maxSize: 0` after inserting the 1001
distinct keys. -/
def c5Cache : MemoryCache String :=
  insertAll (mkMemoryCache { maxSize := some 0 }) c5Keys "v"

/-- Cache with maxSize 3 holding `a`, `b`, `c`, inserted in that order, with
no intervening reads: `a` is the least recently used, `c` the most. -/
def c6Cache : MemoryCache String :=
  memSet (memSet (memSet (mkMemoryCache { maxSize := some 3 })
    "a" "1" none 0) "b" "2" none 1) "c" "3" none 2

/-- The same cache after `setOptions({ maxSize: 2 })`. -/
def c6After : MemoryCache String := memSetOptions c6Cache { maxSize := some 2 }

/-- Registry holding a memory backend (instances modelled as numbers). -/
def c7Reg : Registry Nat :=
  { backends := [(BackendKind.memory, 0)], defaultBackend := some BackendKind.memory }

/-- Normalized default options (used by the redis witness). -/
def c8Opts : NormOpts := normalizeOptions {}

/-- Backend of the scoped-stats example: holds `other:1` (outside the scope)
and `p:x` (inside it). -/
def c10Backend : MemoryCache String :=
  memSet (mkMemoryCache {}) "other:1" "w" none 0

/-- Scoped cache with prefix `p` over that backend, after `set('x', ...)`. -/
def c10Scoped : ScopedCache String :=
  scopedSet (mkScopedCache c10Backend { pref := some "p" }) "x" "u" none 0

/-- C1: the spec and the disposal tests require that after `dispose()` every
subsequent get returns absent and every subsequent set performs no mutation;
the code records no disposed state, so a post-disposal set still mutates the
store and the following get returns the stored value, for both MemoryCache
and ScopedCache.  This theorem evaluates the code at the failing input. -/
theorem c1_post_dispose_mutation :
    (memGet c1Mem2 "test" 1).1 = none ∧
    (memGet c1Mem3 "test" 1).1 = some "data2" ∧
    memSize c1Mem3 = 1 ∧
    (scopedGet c1Scoped2 "item1" 1).1 = none ∧
    (scopedGet c1Scoped3 "item3" 1).1 = some "data3" ∧
    memSize c1Scoped3.backendInst = 1 := by
  decide

/-- C2: the claim states that deleteByPrefix("a") only removes keys of the
literal colon-delimited form `a:rest`, so a key under the distinct prefix
`ab` must survive; in the code the pattern is `a*`, a plain character
prefix, so `ab:x` is removed as well. -/
theorem c2_counterexample :
    memHas c2Cache "ab:x" 0 = true ∧
    memHas c2After "ab:x" 0 = false ∧
    memHas c2After "a:1" 0 = false ∧
    memHas c2After "b:1" 0 = true := by
  decide

/-- C6 counterexample: with `a`, `b`, `c` inserted in that order (so `a` is
the least recently used), shrinking maxSize from 3 to 2 evicts `c` — the
most recently used entry — not the oldest `a` as the claim states. -/
theorem c6_counterexample :
    memSize c6After = 2 ∧
    memHas c6After "a" 2 = true ∧
    memHas c6After "b" 2 = true ∧
    memHas c6After "c" 2 = false := by
  decide

/-- C7 counterexample: with a memory backend already registered,
registerBackend of a second memory backend raises no error — it returns
silently with the registry unchanged (the claim predicts a distinct error). -/
theorem c7_counterexample :
    registerBackend c7Reg BackendKind.memory 1 true = Except.ok c7Reg := by
  rfl

/-- C7 amended: a duplicate registration of an already-registered kind
leaves the registry unchanged; the name-keyed `register` variant raises the
distinct `already registered` error, while `registerBackend` returns
silently without any error. -/
theorem c7_amended {ι : Type} (r : Registry ι) (k : BackendKind) (inst : ι)
    (d : Bool) (h : registryHas r k = true) :
    registerBackend r k inst d = Except.ok r ∧
    registerNamed r k inst d =
      Except.error ("Cache \"" ++ kindName k ++ "\" already registered") := by
  constructor
  · simp [registerBackend, h]
  · simp [registerNamed, h]

/-- C7 witness: the amended theorem applied to the concrete registry that
already holds a memory backend. -/
theorem c7_amended_witness :
    registryHas c7Reg BackendKind.memory = true ∧
    registerBackend c7Reg BackendKind.memory 1 false = Except.ok c7Reg ∧
    registerNamed c7Reg BackendKind.memory 1 false =
      Except.error ("Cache \"memory\" already registered") :=
  ⟨by decide,
    (c7_amended c7Reg BackendKind.memory 1 false (by decide)).1,
    (c7_amended c7Reg BackendKind.memory 1 false (by decide)).2⟩

/-- C8: RedisCache.get is fail-open and total: when disabled, when the
client call fails, when the key is absent, or when the stored value fails to
parse, it returns absent and increments the miss counter; when the stored
value parses, it increments the hit counter and returns the parsed value. -/
theorem c8_redis_get_fail_open {T : Type} (opts : NormOpts)
    (parse : String → Option T) (key : String) (st : RedisState)
    (hen : opts.enabled = true) :
    (∀ client, client (buildKey opts key) = Except.error () →
      redisGet opts client parse key st = (none, { st with misses := st.misses + 1 })) ∧
    (∀ client, client (buildKey opts key) = Except.ok none →
      redisGet opts client parse key st = (none, { st with misses := st.misses + 1 })) ∧
    (∀ client s, client (buildKey opts key) = Except.ok (some s) → parse s = none →
      redisGet opts client parse key st = (none, { st with misses := st.misses + 1 })) ∧
    (∀ client s v, client (buildKey opts key) = Except.ok (some s) → parse s = some v →
      redisGet opts client parse key st = (some v, { st with hits := st.hits + 1 })) := by
  refine ⟨fun client hc => ?_, fun client hc => ?_,
    fun client s hc hp => ?_, fun client s v hc hp => ?_⟩ <;>
    simp [redisGet, hen, hc]
  · simp [hp]
  · simp [hp]

/-- C8 witness: the theorem applied at a concrete failing client and a
concrete parser. -/
theorem c8_redis_get_fail_open_witness :
    c8Opts.enabled = true ∧
    redisGet c8Opts (fun _ => Except.error ()) (fun s => some s) "k" ⟨0, 0⟩ =
      (none, ⟨0, 1⟩) :=
  ⟨rfl,
    (c8_redis_get_fail_open c8Opts (fun s => some s) "k" ⟨0, 0⟩ rfl).1
      (fun _ => Except.error ()) rfl⟩

/-- C9 counterexample: the second generateKey variant with an empty prefix
still emits the prefix separator, producing `:user:list` where the claim
requires `user:list`. -/
theorem c9_counterexample :
    generateKeyV2 (fun s => s) "" "user" "list" none = ":user:list" ∧
    ":user:list" ≠ "user:list" := by
  constructor
  · rfl
  · decide

/-- C9 amended: the buildKey-based generateKey behaves exactly as the claim
states (prefix prepended as `prefix:key` only when non-empty); the second
variant unconditionally emits `prefix + ":"`, so an empty prefix yields a
leading colon. -/
theorem c9_amended (digest : String → String) (opts : NormOpts)
    (pref resource operation : String) (v : Val) :
    (generateKey digest opts resource operation none =
      if opts.pref = "" then resource ++ ":" ++ operation
      else opts.pref ++ ":" ++ (resource ++ ":" ++ operation)) ∧
    (generateKey digest opts resource operation (some v) =
      if opts.pref = "" then resource ++ ":" ++ operation ++ ":" ++ stableHash digest v
      else opts.pref ++ ":" ++ (resource ++ ":" ++ operation ++ ":" ++ stableHash digest v)) ∧
    (generateKeyV2 digest pref resource operation none =
      pref ++ ":" ++ resource ++ ":" ++ operation) ∧
    (generateKeyV2 digest pref resource operation (some v) =
      pref ++ ":" ++ resource ++ ":" ++ operation ++ ":" ++ stableHash digest v) := by
  refine ⟨?_, ?_, rfl, rfl⟩ <;>
  · by_cases h : opts.pref = "" <;> simp [generateKey, buildKey, h]

/-- C10: ScopedCache.getStats returns the wrapped backend's stats object
unchanged, so its size field is the backend-wide entry count; size() instead
counts only the keys under the scope's own prefix, and on a backend also
holding foreign keys the two differ (2 versus 1 in the concrete instance). -/
theorem c10_scoped_stats :
    (∀ (s : ScopedCache String), scopedGetStats s = memGetStats s.backendInst) ∧
    (∀ (s : ScopedCache String), (scopedGetStats s).size = memSize s.backendInst) ∧
    (scopedGetStats c10Scoped).size = 2 ∧
    scopedSize c10Scoped = 1 := by
  refine ⟨fun s => rfl, fun s => rfl, ?_, ?_⟩ <;> decide

/-- C3: on an enabled MemoryCache (any cache whose LRU store has capacity at
least one, which holds for every constructed cache), `set(k, v)` followed
immediately by `get(k)` returns `v`, for any explicit or defaulted TTL. -/
theorem c3_set_get_roundtrip {T : Type} (c : MemoryCache T) (k : String) (v : T)
    (ttl : Option Nat) (now : Nat)
    (hen : c.options.enabled = true) (hmax : 1 ≤ c.lruMax) :
    (memGet (memSet c k v ttl now) k now).1 = some v := by
  obtain ⟨m, hm⟩ : ∃ m, c.lruMax = m + 1 := ⟨c.lruMax - 1, by omega⟩
  simp only [memSet, memGet, hen, Bool.not_true, Bool.false_eq_true, if_false, lruSet, lruGet,
    hm, List.take_succ_cons, List.find?]
  simp [lruExpired]

/-- C3 witness: the round-trip theorem applied to a freshly constructed
default MemoryCache at a concrete key and value. -/
theorem c3_set_get_roundtrip_witness :
    ((mkMemoryCache {} : MemoryCache String).options.enabled = true ∧
      1 ≤ (mkMemoryCache {} : MemoryCache String).lruMax) ∧
    (memGet (memSet (mkMemoryCache {}) "k" "v" none 5) "k" 5).1 = some "v" :=
  ⟨⟨by decide, by decide⟩,
    c3_set_get_roundtrip (mkMemoryCache {}) "k" "v" none 5 (by decide) (by decide)⟩

/-- A star-free pattern followed by `*` matches exactly the keys having the
pattern as a literal character prefix. -/
theorem patMatch_append_star :
    ∀ (p k : List Char), '*' ∉ p → patMatch (p ++ ['*']) k = p.isPrefixOf k := by
  intro p
  induction p with
  | nil =>
    intro k _
    simp only [List.nil_append, List.isPrefixOf_nil_left, patMatch, if_pos rfl]
    exact List.any_eq_true.mpr ⟨[], (List.mem_tails _ _).mpr List.nil_suffix, rfl⟩
  | cons c ps ih =>
    intro k h
    have hc : c ≠ '*' := fun hcc => h (hcc ▸ List.mem_cons_self c ps)
    have hps : '*' ∉ ps := fun hm => h (List.mem_cons_of_mem c hm)
    cases k with
    | nil => simp [patMatch, hc, List.isPrefixOf]
    | cons d ks => simp [patMatch, hc, List.isPrefixOf_cons₂, ih ks hps]

/-- Folding `delete` over a list of keys preserves the cache options. -/
theorem foldl_memDelete_options {T : Type} :
    ∀ (ks : List String) (c : MemoryCache T),
      (ks.foldl (fun acc k => (memDelete acc k).2) c).options = c.options := by
  intro ks
  induction ks with
  | nil => intro c; rfl
  | cons k ks ih => intro c; simpa [List.foldl_cons] using ih (memDelete c k).2

/-- With an empty cache prefix, folding `delete` over a list of keys leaves
exactly the entries whose key is not in the list. -/
theorem foldl_memDelete_store {T : Type} :
    ∀ (ks : List String) (c : MemoryCache T), c.options.pref = "" →
      (ks.foldl (fun acc k => (memDelete acc k).2) c).store =
        c.store.filter (fun e => !ks.contains e.key) := by
  intro ks
  induction ks with
  | nil =>
    intro c _
    simp
  | cons k ks ih =>
    intro c hpref
    have hbk : buildKey c.options k = k := by simp [buildKey, hpref]
    have hstep : ((memDelete c k).2 : MemoryCache T).options = c.options := rfl
    rw [List.foldl_cons]
    rw [ih (memDelete c k).2 (by rw [hstep, hpref])]
    show (c.store.filter (fun e => !(e.key == buildKey c.options k))).filter
        (fun e => !ks.contains e.key) = _
    rw [hbk, List.filter_filter]
    apply List.filter_congr
    intro e _
    rw [List.contains_cons]
    cases hek : e.key == k <;> cases hks : ks.contains e.key <;> simp [hek, hks]

/-- C2 amended: with the backend's own prefix empty (the configuration the
scoping wrapper uses), `deleteByPrefix(p)` for a star-free `p` removes
exactly the keys having `p` as a literal character prefix — the colon is not
required, so a key under a distinct longer prefix sharing the same leading
characters is removed as well. -/
theorem c2_amended {T : Type} (c : MemoryCache T) (p k : String)
    (hpref : c.options.pref = "") (hstar : noStar p = true) :
    k ∈ lruKeys (memDeleteByPref c p).store ↔
      (k ∈ lruKeys c.store ∧ strHasPref p k = false) := by
  have hmem : '*' ∉ p.data := by
    simpa [noStar, List.contains] using hstar
  have hpat : ∀ s : String, patMatchStr (p ++ "*") s = strHasPref p s := by
    intro s
    have hdata : (p ++ "*").data = p.data ++ ['*'] := by
      show (p ++ "*").data = p.data ++ "*".data
      simp
    rw [patMatchStr, hdata, patMatch_append_star p.data s.data hmem, strHasPref]
  unfold memDeleteByPref memDeleteByPattern
  rw [foldl_memDelete_store (memGetKeys c (p ++ "*")) c hpref]
  unfold memGetKeys lruKeys
  constructor
  · rintro hk
    rcases List.mem_map.mp hk with ⟨e, hef, hekey⟩
    rcases List.mem_filter.mp hef with ⟨hes, hnc⟩
    refine ⟨List.mem_map.mpr ⟨e, hes, hekey⟩, ?_⟩
    by_contra hpre
    have hpre' : strHasPref p k = true := by
      cases hx : strHasPref p k
      · exact absurd hx hpre
      · rfl
    have hkm : e.key ∈ (c.store.map LruEntry.key).filter (fun s => patMatchStr (p ++ "*") s) := by
      apply List.mem_filter.mpr
      refine ⟨List.mem_map.mpr ⟨e, hes, rfl⟩, ?_⟩
      rw [hekey, hpat k, hpre']
    have : ((c.store.map LruEntry.key).filter
        (fun s => patMatchStr (p ++ "*") s)).contains e.key = true := by
      exact List.elem_eq_true_of_mem hkm
    rw [this] at hnc
    simp at hnc
  · rintro ⟨hk, hpre⟩
    rcases List.mem_map.mp hk with ⟨e, hes, hekey⟩
    apply List.mem_map.mpr
    refine ⟨e, List.mem_filter.mpr ⟨hes, ?_⟩, hekey⟩
    cases hc : ((c.store.map LruEntry.key).filter
        (fun s => patMatchStr (p ++ "*") s)).contains e.key
    · rfl
    · exfalso
      have hkm := List.mem_of_elem_eq_true hc
      rcases List.mem_filter.mp hkm with ⟨_, hmatch⟩
      rw [hekey] at hmatch
      rw [hpat k] at hmatch
      rw [hpre] at hmatch
      exact Bool.false_ne_true hmatch

/-- C2 witness: the amended characterization applied at the concrete cache
(keys `a:1`, `ab:x`, `b:1`) with prefix `a` and key `ab:x`. -/
theorem c2_amended_witness :
    (c2Cache.options.pref = "" ∧ noStar "a" = true) ∧
    ("ab:x" ∈ lruKeys (memDeleteByPref c2Cache "a").store ↔
      ("ab:x" ∈ lruKeys c2Cache.store ∧ strHasPref "a" "ab:x" = false)) :=
  ⟨⟨rfl, by decide⟩, c2_amended c2Cache "a" "ab:x" rfl (by decide)⟩

/-- Taking `m` of an append absorbs an inner take of the right part. -/
theorem take_append_take {α : Type} (m : Nat) (A B : List α) :
    (A ++ B.take m).take m = (A ++ B).take m := by
  rw [List.take_append_eq_append_take, List.take_append_eq_append_take,
    List.take_take, Nat.min_eq_left (Nat.sub_le m A.length)]

/-- memSet preserves the options, the capacity and the default TTL. -/
theorem memSet_config {T : Type} (c : MemoryCache T) (k : String) (v : T)
    (ttl : Option Nat) (now : Nat) :
    (memSet c k v ttl now).options = c.options ∧
    (memSet c k v ttl now).lruMax = c.lruMax ∧
    (memSet c k v ttl now).lruTtl = c.lruTtl := by
  unfold memSet
  cases c.options.enabled <;> simp

/-- Inserting a list of fresh, pairwise-distinct keys into a within-capacity
cache with empty prefix leaves the store holding the last `lruMax` inserted
keys, most recent first. -/
theorem insertAll_keys {T : Type} (v : T) :
    ∀ (ks : List String) (c : MemoryCache T),
      c.options.pref = "" → c.options.enabled = true → ks.Nodup →
      (∀ x ∈ ks, ¬ x ∈ c.store.map LruEntry.key) →
      c.store.length ≤ c.lruMax →
      (insertAll c ks v).store.map LruEntry.key =
        (ks.reverse ++ c.store.map LruEntry.key).take c.lruMax ∧
      (insertAll c ks v).lruMax = c.lruMax := by
  intro ks
  induction ks with
  | nil =>
    intro c h1 h2 h3 h4 h5
    refine ⟨?_, rfl⟩
    rw [List.reverse_nil, List.nil_append, List.take_of_length_le (by simpa using h5)]
    rfl
  | cons k ks ih =>
    intro c h1 h2 h3 h4 h5
    have hfresh : ¬ k ∈ c.store.map LruEntry.key := h4 k (List.mem_cons_self k ks)
    have hfilter : c.store.filter (fun e => !(e.key == k)) = c.store := by
      apply List.filter_eq_self.mpr
      intro e he
      have : e.key ≠ k := fun hek => hfresh (hek ▸ List.mem_map_of_mem LruEntry.key he)
      simp [this]
    have hbk : buildKey c.options k = k := by simp [buildKey, h1]
    have hstore : (memSet c k v none 0).store =
        (⟨k, v, 0, c.lruTtl⟩ :: c.store).take c.lruMax := by
      unfold memSet
      rw [h2]
      simp only [Bool.not_true, Bool.false_eq_true, if_false, lruSet, hbk, hfilter]
      rfl
    have hopts : (memSet c k v none 0).options = c.options :=
      (memSet_config c k v none 0).1
    have hmax : (memSet c k v none 0).lruMax = c.lruMax :=
      (memSet_config c k v none 0).2.1
    have hkeys : (memSet c k v none 0).store.map LruEntry.key =
        (k :: c.store.map LruEntry.key).take c.lruMax := by
      rw [hstore, List.map_take]
      rfl
    have hsub : ∀ x, x ∈ (memSet c k v none 0).store.map LruEntry.key →
        x = k ∨ x ∈ c.store.map LruEntry.key := by
      intro x hx
      rw [hkeys] at hx
      have := List.mem_of_mem_take hx
      rcases List.mem_cons.mp this with h | h
      · exact Or.inl h
      · exact Or.inr h
    have step := ih (memSet c k v none 0)
      (by rw [hopts, h1]) (by rw [hopts, h2]) h3.of_cons
      (by
        intro x hxks hxmem
        rcases hsub x hxmem with rfl | hxc
        · exact (List.nodup_cons.mp h3).1 hxks
        · exact h4 x (List.mem_cons_of_mem k hxks) hxc)
      (by
        rw [hstore, hmax]
        calc ((⟨k, v, 0, c.lruTtl⟩ :: c.store).take c.lruMax).length
            ≤ c.lruMax := by
              rw [List.length_take]; exact Nat.min_le_left _ _)
    show (insertAll (memSet c k v none 0) ks v).store.map LruEntry.key =
        ((k :: ks).reverse ++ c.store.map LruEntry.key).take c.lruMax ∧
      (insertAll (memSet c k v none 0) ks v).lruMax = c.lruMax
    refine ⟨?_, by rw [step.2, hmax]⟩
    rw [step.1, hmax, hkeys, take_append_take, List.reverse_cons,
      List.append_assoc, List.singleton_append]

/-- C5: the claim (and the code's own option documentation, `0 = unlimited`)
requires maxSize 0 to mean no capacity eviction ever; the constructor maps
maxSize 0 to the default capacity 1000, so inserting 1001 distinct keys into
a cache built with maxSize 0 leaves only 1000 entries — a capacity eviction
occurred. -/
theorem c5_maxsize_zero_not_unlimited :
    lruMaxOf 0 = 1000 ∧
    (mkMemoryCache { maxSize := some 0 } : MemoryCache String).lruMax = 1000 ∧
    c5Keys.Nodup ∧ c5Keys.length = 1001 ∧
    memSize c5Cache = 1000 := by
  have hinj : Function.Injective (fun i => String.mk (List.replicate i 'a')) := by
    intro a b h
    have hd : List.replicate a 'a' = List.replicate b 'a' := congrArg String.data h
    have := congrArg List.length hd
    simpa using this
  have hnodup : c5Keys.Nodup := (List.nodup_range 1001).map hinj
  have hlen : c5Keys.length = 1001 := by simp [c5Keys]
  have hbase := insertAll_keys "v" c5Keys
    (mkMemoryCache { maxSize := some 0 } : MemoryCache String)
    rfl rfl hnodup (by intro x _ hx; simp [mkMemoryCache] at hx)
    (by simp [mkMemoryCache])
  have hmax : (mkMemoryCache { maxSize := some 0 } : MemoryCache String).lruMax = 1000 := rfl
  refine ⟨rfl, rfl, hnodup, hlen, ?_⟩
  have hkeys := hbase.1
  rw [hmax] at hkeys
  have : c5Cache.store.map LruEntry.key =
      (c5Keys.reverse ++ []).take 1000 := by
    simpa [c5Cache, mkMemoryCache] using hkeys
  have hlens := congrArg List.length this
  rw [List.length_map, List.length_take, List.append_nil, List.length_reverse, hlen] at hlens
  simpa [memSize] using hlens

/-- Deleting, in order, the keys of the first `n` entries of a
duplicate-free store removes exactly those first `n` entries. -/
theorem foldl_filter_take_keys {T : Type} :
    ∀ (st : LruStore T) (n : Nat), (st.map LruEntry.key).Nodup →
      ((st.take n).map LruEntry.key).foldl
        (fun s k => List.filter (fun e => !(e.key == k)) s) st = st.drop n := by
  intro st
  induction st with
  | nil => intro n _; simp
  | cons e es ih =>
    intro n hnd
    cases n with
    | zero => simp
    | succ m =>
      rw [List.take_succ_cons, List.map_cons, List.foldl_cons]
      have hfresh : ¬ e.key ∈ es.map LruEntry.key := by
        rw [List.map_cons, List.nodup_cons] at hnd
        exact hnd.1
      have hhead : List.filter (fun e' => !(e'.key == e.key)) (e :: es) = es := by
        rw [List.filter_cons]
        simp only [beq_self_eq_true, Bool.not_true, Bool.false_eq_true, if_false]
        apply List.filter_eq_self.mpr
        intro x hx
        have : x.key ≠ e.key := fun hk => hfresh (hk ▸ List.mem_map_of_mem LruEntry.key hx)
        simp [this]
      rw [hhead, List.drop_succ_cons]
      exact ih m (by rw [List.map_cons, List.nodup_cons] at hnd; exact hnd.2)

/-- C6 amended: reducing maxSize below the current occupancy via setOptions
synchronously evicts entries until occupancy equals the new limit, but the
evicted entries are the first `size - newMax` in the store's
most-recently-used-first iteration order — the most recently used ones, not
the oldest. -/
theorem c6_amended {T : Type} (c : MemoryCache T) (newMax : Nat)
    (hndup : (c.store.map LruEntry.key).Nodup)
    (hlt : newMax < c.options.maxSize)
    (hocc : newMax < c.store.length) :
    (memSetOptions c { maxSize := some newMax }).store =
      c.store.drop (c.store.length - newMax) ∧
    memSize (memSetOptions c { maxSize := some newMax }) = newMax := by
  have hstore : (memSetOptions c { maxSize := some newMax }).store =
      c.store.drop (c.store.length - newMax) := by
    unfold memSetOptions memOnOptionsChanged
    simp only [Option.getD]
    rw [if_pos ⟨hlt, hocc⟩]
    unfold memEvictExcess
    rw [if_neg (show ¬ (c.store.length - newMax = 0) by omega)]
    exact foldl_filter_take_keys c.store (c.store.length - newMax) hndup
  refine ⟨hstore, ?_⟩
  rw [memSize, hstore, List.length_drop]
  omega

/-- C6 witness: the amended theorem applied at the concrete three-entry
cache shrunk from maxSize 3 to 2. -/
theorem c6_amended_witness :
    ((c6Cache.store.map LruEntry.key).Nodup ∧ 2 < c6Cache.options.maxSize ∧
      2 < c6Cache.store.length) ∧
    ((memSetOptions c6Cache { maxSize := some 2 }).store =
      c6Cache.store.drop (c6Cache.store.length - 2) ∧
     memSize (memSetOptions c6Cache { maxSize := some 2 }) = 2) :=
  ⟨⟨by decide, by decide, by decide⟩,
    c6_amended c6Cache 2 (by decide) (by decide) (by decide)⟩

/-- normalizeList is element-wise normalization. -/
theorem normalizeList_eq_map : ∀ l : List Val, normalizeList l = l.map normalize := by
  intro l
  induction l with
  | nil => rfl
  | cons v vs ih => simp [normalizeList, ih]

/-- normalizeEntries is value-wise normalization. -/
theorem normalizeEntries_eq_map :
    ∀ l : List (String × Val),
      normalizeEntries l = l.map (fun p => (p.1, normalize p.2)) := by
  intro l
  induction l with
  | nil => rfl
  | cons p ps ih =>
    obtain ⟨k, v⟩ := p
    simp [normalizeEntries, ih]

/-- A sorted entry list with duplicate-free keys is strictly sorted. -/
theorem sorted_entryLt_of_nodup {l : List (String × Val)}
    (hs : List.Sorted entryLe l) (hnd : (l.map Prod.fst).Nodup) :
    List.Sorted entryLt l := by
  have hne : l.Pairwise (fun a b => a.1 ≠ b.1) := by
    rw [List.Nodup, List.pairwise_map] at hnd
    exact hnd
  exact (List.Pairwise.and hs hne).imp (fun h => lt_of_le_of_ne h.1 h.2)

/-- Sorting is invariant under permutation of entry lists whose keys are
pairwise distinct. -/
theorem sortEntries_eq_of_perm {l₁ l₂ : List (String × Val)}
    (h : List.Perm l₁ l₂) (hnd : (l₁.map Prod.fst).Nodup) :
    sortEntries l₁ = sortEntries l₂ := by
  have hp1 := List.perm_insertionSort entryLe l₁
  have hp2 := List.perm_insertionSort entryLe l₂
  have hperm : List.Perm (sortEntries l₁) (sortEntries l₂) :=
    hp1.trans (h.trans hp2.symm)
  have hnd1 : ((sortEntries l₁).map Prod.fst).Nodup :=
    ((hp1.map Prod.fst).nodup_iff).mpr hnd
  have hnd2 : ((sortEntries l₂).map Prod.fst).Nodup :=
    ((hperm.map Prod.fst).nodup_iff).mp hnd1
  have hlt1 : List.Sorted entryLt (sortEntries l₁) :=
    sorted_entryLt_of_nodup (List.sorted_insertionSort entryLe l₁) hnd1
  have hlt2 : List.Sorted entryLt (sortEntries l₂) :=
    sorted_entryLt_of_nodup (List.sorted_insertionSort entryLe l₂) hnd2
  exact List.eq_of_perm_of_sorted hperm hlt1 hlt2

/-- Well-formedness of a list member. -/
theorem valWFList_mem :
    ∀ {l : List Val}, ValWFList l = true → ∀ {v : Val}, v ∈ l → ValWF v = true := by
  intro l
  induction l with
  | nil => intro _ v hv; exact absurd hv (List.not_mem_nil v)
  | cons w ws ih =>
    intro hl v hv
    rw [ValWFList, Bool.and_eq_true] at hl
    rcases List.mem_cons.mp hv with rfl | hv
    · exact hl.1
    · exact ih hl.2 hv

/-- Well-formedness of an entry value. -/
theorem valWFEntries_mem :
    ∀ {l : List (String × Val)}, ValWFEntries l = true →
      ∀ {p : String × Val}, p ∈ l → ValWF p.2 = true := by
  intro l
  induction l with
  | nil => intro _ p hp; exact absurd hp (List.not_mem_nil p)
  | cons q qs ih =>
    intro hl p hp
    obtain ⟨qk, qv⟩ := q
    rw [ValWFEntries, Bool.and_eq_true] at hl
    rcases List.mem_cons.mp hp with rfl | hp
    · exact hl.1
    · exact ih hl.2 hp

/-- Every value has positive size. -/
theorem val_sizeOf_pos (v : Val) : 0 < sizeOf v := by
  cases v <;> simp

/-- The value component of an entry is smaller than the entry. -/
theorem snd_sizeOf_lt (p : String × Val) : sizeOf p.2 < sizeOf p := by
  obtain ⟨a, b⟩ := p
  simp

/-- Normalization identifies every pair of values that are deeply equal up
to object key order, for well-formed left values; by strong induction on
the size of the left value. -/
theorem normalize_eq_of_equiv :
    ∀ (n : Nat) (v₁ v₂ : Val), sizeOf v₁ ≤ n → ValWF v₁ = true →
      EqUpToKeyOrder v₁ v₂ → normalize v₁ = normalize v₂ := by
  intro n
  induction n with
  | zero =>
    intro v₁ _ hsize _ _
    exact absurd hsize (by have := val_sizeOf_pos v₁; omega)
  | succ n ihn =>
    intro v₁ v₂ hsize hwf heq
    cases heq with
    | null => rfl
    | bool b => rfl
    | num m => rfl
    | str s => rfl
    | arr l₁ l₂ hlen h =>
      have hspec : sizeOf (Val.arr l₁) = 1 + sizeOf l₁ := by simp
      have hl : normalizeList l₁ = normalizeList l₂ := by
        rw [normalizeList_eq_map, normalizeList_eq_map]
        apply List.ext_get (by simp [hlen])
        intro i h₁ h₂
        rw [List.length_map] at h₁ h₂
        rw [List.get_map, List.get_map]
        show normalize (l₁.get ⟨i, h₁⟩) = normalize (l₂.get ⟨i, h₂⟩)
        apply ihn
        · have hmem := List.get_mem l₁ i h₁
          have hlt := List.sizeOf_lt_of_mem hmem
          omega
        · exact valWFList_mem (by simpa [ValWF] using hwf) (List.get_mem l₁ i h₁)
        · exact h i h₁ h₂
      simp only [normalize, hl]
    | obj l₁ l₂ l₃ hlen hkey hval hperm =>
      have hspec : sizeOf (Val.obj l₁) = 1 + sizeOf l₁ := by simp
      have hwf' : (l₁.map Prod.fst).Nodup ∧ ValWFEntries l₁ = true := by
        rw [ValWF, Bool.and_eq_true, decide_eq_true_eq] at hwf
        exact hwf
      have hA : normalizeEntries l₁ = normalizeEntries l₃ := by
        rw [normalizeEntries_eq_map, normalizeEntries_eq_map]
        apply List.ext_get (by simp [hlen])
        intro i h₁ h₂
        rw [List.length_map] at h₁ h₂
        rw [List.get_map, List.get_map]
        have hk := hkey i h₁ h₂
        have hv : normalize (l₁.get ⟨i, h₁⟩).2 = normalize (l₃.get ⟨i, h₂⟩).2 := by
          apply ihn
          · have hmem := List.get_mem l₁ i h₁
            have hlt := List.sizeOf_lt_of_mem hmem
            have hsnd := snd_sizeOf_lt (l₁.get ⟨i, h₁⟩)
            omega
          · exact valWFEntries_mem hwf'.2 (List.get_mem l₁ i h₁)
          · exact hval i h₁ h₂
        rw [Prod.ext_iff]
        exact ⟨hk, hv⟩
      have hB : List.Perm (normalizeEntries l₃) (normalizeEntries l₂) := by
        rw [normalizeEntries_eq_map, normalizeEntries_eq_map]
        exact hperm.map _
      have hnd : ((normalizeEntries l₃).map Prod.fst).Nodup := by
        rw [normalizeEntries_eq_map, List.map_map]
        have hkeys : l₃.map (Prod.fst ∘ fun p => (p.1, normalize p.2)) = l₁.map Prod.fst := by
          apply List.ext_get (by simp [hlen])
          intro i h₁ h₂
          rw [List.length_map] at h₁ h₂
          rw [List.get_map, List.get_map]
          exact (hkey i h₂ h₁).symm
        rw [hkeys]
        exact hwf'.1
      simp only [normalize]
      rw [hA, sortEntries_eq_of_perm hB hnd]

/-- C4: stableHash is invariant under reordering of object keys at any
depth (for values with duplicate-free keys, as JavaScript objects are),
while for arrays the normalization preserves element order, so reordering a
sequence changes the serialized hash input. -/
theorem c4_stable_hash :
    (∀ (digest : String → String) (v₁ v₂ : Val), ValWF v₁ = true →
      EqUpToKeyOrder v₁ v₂ → stableHash digest v₁ = stableHash digest v₂) ∧
    serialize (normalize (Val.arr [Val.str "a", Val.str "b"])) ≠
      serialize (normalize (Val.arr [Val.str "b", Val.str "a"])) := by
  constructor
  · intro digest v₁ v₂ hwf heq
    unfold stableHash
    rw [normalize_eq_of_equiv (sizeOf v₁) v₁ v₂ le_rfl hwf heq]
  · decide

/-- The two concrete mappings of the witness are deeply equal up to key
order. -/
theorem c4_equiv_example : EqUpToKeyOrder c4VA c4VB := by
  apply EqUpToKeyOrder.obj _ _ [("b", Val.str "y"), ("a", Val.str "x")]
  · rfl
  · intro i h₁ h₃; rfl
  · intro i h₁ h₃
    match i, h₁ with
    | 0, _ => exact EqUpToKeyOrder.str "y"
    | 1, _ => exact EqUpToKeyOrder.str "x"
  · exact List.Perm.swap ("a", Val.str "x") ("b", Val.str "y") []

/-- C4 witness: the invariance theorem applied at the identity digest to the
concrete two-key mappings with swapped key order. -/
theorem c4_stable_hash_witness :
    ValWF c4VA = true ∧
    stableHash (fun s => s) c4VA = stableHash (fun s => s) c4VB :=
  ⟨by decide, c4_stable_hash.1 (fun s => s) c4VA c4VB (by decide) c4_equiv_example⟩

end Cachejs
